import Mathlib

/-!
# myShell: parsing and process orchestration

A shallow embedding of `src/myShell.c`.

* A C string is the list of its characters before the terminating NUL.
* `strtok` keeps a hidden save pointer; here it is returned and passed on explicitly.
* `size_t` arithmetic is done in `Nat`: in `normalize_redirects` the only sum is `j + 3`
  with `j < dstsz`, which could wrap only for a capacity within 2 of `SIZE_MAX`, larger
  than any array; `int` counters stay far below `INT_MAX`.
* `parse_line` receives `args` without a capacity and checks none; the model is given the
  number of elements of the array the caller passes (`MAX_ARGS` at both call sites) and
  stops with `out_of_bounds` at the first store outside it.
* `wait(NULL)` returns only when the child terminates; whether it does is part of the
  oracle, and a call whose `wait` never returns ends as `blocked`.
* System calls take their outcome from an explicit oracle, descriptor tables are lists
  of slots, and a forked child is recorded with the descriptors it holds when it calls
  `execvp`.
-/

namespace MyShell

/-! ## Constants -/

/-- Source: `#define MAX_INPUT_SIZE 1024`. -/
def MAX_INPUT_SIZE : Nat := 1024

/-- Source: `#define MAX_ARGS 64`. -/
def MAX_ARGS : Nat := 64

/-- Source: `#define MAX_PIPE_COMMANDS 5`. -/
def MAX_PIPE_COMMANDS : Nat := 5

/-- The delimiter string `" \t\n"` given to `strtok` by the parsers. -/
def WS : List Char := [' ', '\t', '\n']

/-- The delimiter string `"|"` given to `strtok` by the pipeline splitter. -/
def PIPE : List Char := ['|']

/-! ## strtok -/

/-- First phase of `strtok`: step over leading delimiter characters. -/
def skipDelims (delims : List Char) : List Char → List Char
  | [] => []
  | c :: cs => if c ∈ delims then skipDelims delims cs else c :: cs

/-- Second phase of `strtok`: run to the next delimiter or to the end of the string.
The delimiter is overwritten by NUL and the save pointer is set just after it; at the end
of the string the save pointer stays on the terminator. Returns the token and the string
at the save pointer. -/
def scanToken (delims : List Char) : List Char → List Char × List Char
  | [] => ([], [])
  | c :: cs =>
    if c ∈ delims then ([], cs)
    else ((c :: (scanToken delims cs).1), (scanToken delims cs).2)

/-- One call of `strtok` on the string `s` (the argument of a first call, the save pointer
of a later one): the token, or `none` for `NULL`, and the new save pointer. -/
def strtok (delims : List Char) (s : List Char) : Option (List Char) × List Char :=
  match skipDelims delims s with
  | [] => (none, [])
  | c :: cs => (some (scanToken delims (c :: cs)).1, (scanToken delims (c :: cs)).2)

/-! ## parse_line -/

/-- The three results of `parse_line`: the stores `args[0], args[1], ...` in order (the
terminating `NULL` is stored at index `args.length`), `*input_file` and `*output_file`
(`none` for `NULL`). -/
structure ParsedCommand where
  args : List (List Char)
  input_file : Option (List Char)
  output_file : Option (List Char)
  deriving DecidableEq, Repr

/-- State at entry of `parse_line`: `i = 0`, both filenames `NULL`. -/
def ParsedCommand.empty : ParsedCommand := ⟨[], none, none⟩

/-- Effect of `if (token) *input_file = token;`. -/
def setInput (pc : ParsedCommand) : Option (List Char) → ParsedCommand
  | none => pc
  | some f => { pc with input_file := some f }

/-- Effect of `if (token) *output_file = token;`. -/
def setOutput (pc : ParsedCommand) : Option (List Char) → ParsedCommand
  | none => pc
  | some f => { pc with output_file := some f }

/-- How a call of `parse_line` ends when `args` points to an array of `slots` elements. -/
inductive ParseResult where
  /-- The function returned and every store was inside the array. -/
  | done (pc : ParsedCommand)
  /-- The next store goes to `args[index]` with `index ≥ slots`, outside the array, and
  the behaviour is undefined from there on; `pc` is what had been stored before. -/
  | out_of_bounds (pc : ParsedCommand) (index : Nat)
  /-- The iteration bound of `parse_loop` was reached. -/
  | unfinished
  deriving DecidableEq, Repr

/-- The `while (token != NULL)` loop of `parse_line` (lines 254-265) and the final store
`args[i] = NULL` (line 266), for an array `args` of `slots` elements; the counter `i` is
`pc.args.length`. The second argument bounds the number of iterations. -/
def parse_loop (slots : Nat) :
    Nat → Option (List Char) → List Char → ParsedCommand → ParseResult
  | 0, _, _, _ => ParseResult.unfinished
  | _ + 1, none, _, pc =>
    if pc.args.length < slots then ParseResult.done pc
    else ParseResult.out_of_bounds pc pc.args.length
  | fuel + 1, some token, saved, pc =>
    if token = ['<'] then
      let r := strtok WS saved
      let r2 := strtok WS r.2
      parse_loop slots fuel r2.1 r2.2 (setInput pc r.1)
    else if token = ['>'] then
      let r := strtok WS saved
      let r2 := strtok WS r.2
      parse_loop slots fuel r2.1 r2.2 (setOutput pc r.1)
    else if pc.args.length < slots then
      let r := strtok WS saved
      parse_loop slots fuel r.1 r.2 { pc with args := pc.args ++ [token] }
    else ParseResult.out_of_bounds pc pc.args.length

/-- Source: `parse_line` (lines 248-267), called with an array `args` of `slots`
elements. -/
def parse_line (slots : Nat) (line : List Char) : ParseResult :=
  parse_loop slots (line.length + 1) (strtok WS line).1 (strtok WS line).2 ParsedCommand.empty

/-! ## normalize_redirects -/

/-- The `for` loop of `normalize_redirects` (lines 396-405) from source position `i` on,
with `j` characters already written: the characters written at `dst[j], dst[j+1], ...`. -/
def normalize_loop (dstsz : Nat) : List Char → Nat → List Char
  | [], _ => []
  | c :: cs, j =>
    if j + 3 < dstsz then
      if c = '<' ∨ c = '>' then
        if j + 3 ≥ dstsz then []
        else ' ' :: c :: ' ' :: normalize_loop dstsz cs (j + 3)
      else c :: normalize_loop dstsz cs (j + 1)
    else []

/-- Source: `normalize_redirects` (lines 394-407). The result is the content of `dst`
before the terminator, which is written at index `(normalize_redirects dstsz src).length`;
all other writes are at lower indices. -/
def normalize_redirects (dstsz : Nat) (src : List Char) : List Char :=
  normalize_loop dstsz src 0

/-- The stores `dst[...] = ...` of `normalize_redirects` in program order from source
position `i` on, each with the index it writes; the last one is the terminator of line
406. -/
def normalize_stores (dstsz : Nat) : List Char → Nat → List (Nat × Char)
  | [], j => [(j, Char.ofNat 0)]
  | c :: cs, j =>
    if j + 3 < dstsz then
      if c = '<' ∨ c = '>' then
        if j + 3 ≥ dstsz then [(j, Char.ofNat 0)]
        else (j, ' ') :: (j + 1, c) :: (j + 2, ' ') :: normalize_stores dstsz cs (j + 3)
      else (j, c) :: normalize_stores dstsz cs (j + 1)
    else [(j, Char.ofNat 0)]

/-! ## The pipeline splitter -/

/-- The splitting loop of `execute_piped_commands` (lines 325-328). The first argument is
`MAX_PIPE_COMMANDS - num_commands`, the room left in `commands`. -/
def split_loop : Nat → Option (List Char) → List Char → List (List Char) → List (List Char)
  | 0, _, _, commands => commands
  | _ + 1, none, _, commands => commands
  | room + 1, some token, saved, commands =>
    let r := strtok PIPE saved
    split_loop room r.1 r.2 (commands ++ [token])

/-- Lines 320-328 of `execute_piped_commands`: the array `commands[0 .. num_commands-1]`. -/
def split_commands (input_line : List Char) : List (List Char) :=
  split_loop MAX_PIPE_COMMANDS (strtok PIPE input_line).1 (strtok PIPE input_line).2 []

/-! ## Descriptors -/

/-- What an open descriptor refers to. -/
inductive Res where
  /-- The open file the shell itself was started with at this descriptor. -/
  | inherited (fd : Nat)
  /-- Read end of the pipe created in loop iteration `stage`. -/
  | pipe_read (stage : Nat)
  /-- Write end of the pipe created in loop iteration `stage`. -/
  | pipe_write (stage : Nat)
  /-- Result of `open(name, O_RDONLY)`. -/
  | file_in (name : List Char)
  /-- Result of `open(name, O_WRONLY | O_CREAT | O_TRUNC, 0644)`. -/
  | file_out (name : List Char)
  deriving DecidableEq, Repr

/-- The descriptor table of a process: slot `fd` holds what descriptor `fd` refers to,
`none` when it is closed. -/
abbrev FdTable := List (Option Res)

/-- Content of slot `fd`. -/
def fd_get : FdTable → Nat → Option Res
  | [], _ => none
  | x :: _, 0 => x
  | _ :: t, n + 1 => fd_get t n

/-- `close(fd)`; closing a closed descriptor changes nothing. -/
def fd_close : FdTable → Nat → FdTable
  | [], _ => []
  | _ :: t, 0 => none :: t
  | x :: t, n + 1 => x :: fd_close t n

/-- Overwrite slot `fd`, growing the table when needed. -/
def fd_set : FdTable → Nat → Option Res → FdTable
  | [], 0, v => [v]
  | [], n + 1, v => none :: fd_set [] n v
  | _ :: t, 0, v => v :: t
  | x :: t, n + 1, v => x :: fd_set t n v

/-- The kernel hands out the lowest closed descriptor: its number and the new table. -/
def fd_alloc : FdTable → Res → Nat × FdTable
  | [], r => (0, [some r])
  | none :: t, r => (0, some r :: t)
  | some x :: t, r => ((fd_alloc t r).1 + 1, some x :: (fd_alloc t r).2)

/-- `dup2(oldfd, newfd)`: fails without effect when `oldfd` is closed, does nothing when
both are the same, otherwise makes `newfd` refer to what `oldfd` refers to. -/
def fd_dup2 (t : FdTable) (oldfd newfd : Nat) : FdTable :=
  match fd_get t oldfd with
  | none => t
  | some r => if oldfd = newfd then t else fd_set t newfd (some r)

/-- A successful `pipe(pipe_fds)` in iteration `stage`: `(pipe_fds[0], pipe_fds[1])` and the
new table. -/
def sys_pipe (t : FdTable) (stage : Nat) : (Nat × Nat) × FdTable :=
  let a := fd_alloc t (Res.pipe_read stage)
  let b := fd_alloc a.2 (Res.pipe_write stage)
  ((a.1, b.1), b.2)

/-- The descriptors that are open, in increasing order. -/
def open_fds (t : FdTable) : List Nat :=
  (List.range t.length).filter (fun fd => (fd_get t fd).isSome)

/-- The table of a shell started from a terminal: 0, 1 and 2 open. -/
def initial_fds : FdTable :=
  [some (Res.inherited 0), some (Res.inherited 1), some (Res.inherited 2)]

/-! ## Processes -/

/-- Outcomes of the system calls, fixed in advance. -/
structure Oracle where
  /-- Whether `pipe` succeeds in loop iteration `stage`. -/
  pipe_ok : Nat → Bool
  /-- Whether `fork` succeeds in loop iteration `stage` (0 for a single command). -/
  fork_ok : Nat → Bool
  /-- Whether the child forked in loop iteration `stage` (0 for a single command) ever
  terminates, that is, whether the `wait(NULL)` that follows the `fork` returns. -/
  wait_returns : Nat → Bool
  /-- Whether `open` of this file succeeds in a child. -/
  open_ok : List Char → Bool
  /-- Whether `execvp` of this argument vector succeeds in a child. -/
  exec_ok : List (List Char) → Bool
  /-- Whether `chdir` to this directory succeeds. -/
  chdir_ok : List Char → Bool
  /-- Whether `getcwd` succeeds. -/
  getcwd_ok : Bool

/-- How the shell code running in a child ends. -/
inductive ChildEnd where
  /-- The call `execvp(args[0], args)` replaced the image. -/
  | image_replaced
  /-- The child called `perror(report)` and `exit(EXIT_FAILURE)`. -/
  | exit_failure (report : List Char)
  /-- The child called `execvp(NULL, args)`: argument 0 is the null pointer and the
  behaviour of the call is undefined. -/
  | exec_null
  deriving DecidableEq, Repr

/-- A forked child: the argument vector it passes to `execvp`, its descriptor table when
its shell code ends, and how that code ends. -/
structure Child where
  args : List (List Char)
  fds : FdTable
  fate : ChildEnd
  deriving DecidableEq, Repr

/-- What the interpreter process itself does, in order. -/
inductive Event where
  | perror (msg : List Char)
  | stderr (msg : List Char)
  | pipe (stage : Nat) (rd wr : Nat)
  | fork (stage : Nat)
  | wait
  | close (fd : Nat)
  | chdir (dir : List Char)
  | print_cwd
  deriving DecidableEq, Repr

/-- The interpreter process during one call: its descriptor table, the children it has
forked and the calls it has made. -/
structure Proc where
  fds : FdTable
  children : List Child
  log : List Event
  deriving DecidableEq, Repr

/-- How a call made by the interpreter ends. -/
inductive Outcome where
  /-- The function returned to its caller. -/
  | returned (p : Proc)
  /-- The interpreter process called `exit(status)`. -/
  | exited (status : Nat) (p : Proc)
  /-- The interpreter is inside a `wait(NULL)` that never returns. -/
  | blocked (p : Proc)
  /-- A store of `parse_line` left the array `args`; the behaviour is undefined from
  there on. -/
  | undefined (p : Proc)
  /-- The iteration bound of `parse_loop` was reached. -/
  | stuck (p : Proc)
  deriving DecidableEq, Repr

/-- Source: `EXIT_FAILURE`. -/
def EXIT_FAILURE : Nat := 1

/-- The final `execvp(args[0], args)` of a child, with `perror(args[0]); exit(EXIT_FAILURE)`
when it fails; for an empty argument list `args[0]` is `NULL`. -/
def child_exec (o : Oracle) (args : List (List Char)) (fds : FdTable) : Child :=
  match args with
  | [] => ⟨[], fds, ChildEnd.exec_null⟩
  | arg0 :: rest =>
    if o.exec_ok (arg0 :: rest) then ⟨arg0 :: rest, fds, ChildEnd.image_replaced⟩
    else ⟨arg0 :: rest, fds, ChildEnd.exit_failure arg0⟩

/-- Child branch of `execute_piped_commands` (lines 353-375) for iteration `i`, started
with a copy `fds` of the parent table. -/
def pipeline_child (o : Oracle) (fds : FdTable) (in_fd rd wr i num_commands : Nat)
    (args : List (List Char)) : Child :=
  let t1 := if in_fd ≠ 0 then fd_close (fd_dup2 fds in_fd 0) in_fd else fds
  let t2 := if i < num_commands - 1 then fd_dup2 t1 wr 1 else t1
  let t3 := fd_close (fd_close t2 rd) wr
  child_exec o args t3

/-- The `for` loop of `execute_piped_commands` (lines 333-390) over the commands not yet
run; `i` is the loop index and `in_fd` the carried descriptor. `parse_line` stores into
`char *args[MAX_ARGS]` (line 334); the filenames it returns are not read again. The parent
goes on after `wait(NULL)` only when the child terminates. -/
def pipeline_loop (o : Oracle) (num_commands : Nat) :
    List (List Char) → Nat → Nat → Proc → Outcome
  | [], _, _, p => Outcome.returned p
  | command :: rest, i, in_fd, p =>
    match parse_line MAX_ARGS command with
    | ParseResult.unfinished => Outcome.stuck p
    | ParseResult.out_of_bounds _ _ => Outcome.undefined p
    | ParseResult.done pc =>
      if o.pipe_ok i = false then
        Outcome.exited EXIT_FAILURE { p with log := p.log ++ [Event.perror "pipe".toList] }
      else
        let pr := sys_pipe p.fds i
        let rd := pr.1.1
        let wr := pr.1.2
        let log1 := p.log ++ [Event.pipe i rd wr]
        if o.fork_ok i = false then
          Outcome.exited EXIT_FAILURE ⟨pr.2, p.children, log1 ++ [Event.perror "fork".toList]⟩
        else
          let child := pipeline_child o pr.2 in_fd rd wr i num_commands pc.args
          if o.wait_returns i = false then
            Outcome.blocked ⟨pr.2, p.children ++ [child], log1 ++ [Event.fork i, Event.wait]⟩
          else
            let fds2 := fd_close pr.2 wr
            let log2 := log1 ++ [Event.fork i, Event.wait, Event.close wr]
            if in_fd ≠ 0 then
              pipeline_loop o num_commands rest (i + 1) rd
                ⟨fd_close fds2 in_fd, p.children ++ [child], log2 ++ [Event.close in_fd]⟩
            else
              pipeline_loop o num_commands rest (i + 1) rd
                ⟨fds2, p.children ++ [child], log2⟩

/-- Source: `execute_piped_commands` (lines 319-391), run by an interpreter whose table
is `fds`. -/
def execute_piped_commands (o : Oracle) (fds : FdTable) (input_line : List Char) : Outcome :=
  let commands := split_commands input_line
  pipeline_loop o commands.length commands 0 0 ⟨fds, [], []⟩

/-- Child branch of `execute_command` (lines 283-310), started with a copy `fds` of the
parent table. -/
def command_child (o : Oracle) (fds : FdTable) (pc : ParsedCommand) : Child :=
  match pc.input_file with
  | some f =>
    if o.open_ok f = false then
      ⟨pc.args, fds, ChildEnd.exit_failure "open input file".toList⟩
    else
      let a := fd_alloc fds (Res.file_in f)
      let t1 := fd_close (fd_dup2 a.2 a.1 0) a.1
      match pc.output_file with
      | some g =>
        if o.open_ok g = false then
          ⟨pc.args, t1, ChildEnd.exit_failure "open output file".toList⟩
        else
          let b := fd_alloc t1 (Res.file_out g)
          child_exec o pc.args (fd_close (fd_dup2 b.2 b.1 1) b.1)
      | none => child_exec o pc.args t1
  | none =>
    match pc.output_file with
    | some g =>
      if o.open_ok g = false then
        ⟨pc.args, fds, ChildEnd.exit_failure "open output file".toList⟩
      else
        let b := fd_alloc fds (Res.file_out g)
        child_exec o pc.args (fd_close (fd_dup2 b.2 b.1 1) b.1)
    | none => child_exec o pc.args fds

/-- Source: `execute_command` (lines 275-314). The parent returns from `wait(NULL)` only
when the child terminates. -/
def execute_command (o : Oracle) (fds : FdTable) (pc : ParsedCommand) : Outcome :=
  if o.fork_ok 0 = false then
    Outcome.returned ⟨fds, [], [Event.perror "fork failed".toList]⟩
  else if o.wait_returns 0 = false then
    Outcome.blocked ⟨fds, [command_child o fds pc], [Event.fork 0, Event.wait]⟩
  else
    Outcome.returned ⟨fds, [command_child o fds pc], [Event.fork 0, Event.wait]⟩

/-- How one iteration of the `while (1)` loop of `main` ends. -/
inductive Step where
  /-- Control is back at the top of the loop, for the next prompt. -/
  | prompt_again (p : Proc)
  /-- The loop was left by `break`; `main` returns 0. -/
  | leave_loop
  /-- The interpreter process called `exit(status)`. -/
  | terminated (status : Nat) (p : Proc)
  /-- The interpreter is inside a `wait(NULL)` that never returns. -/
  | blocked (p : Proc)
  /-- A store of `parse_line` left the array `args`; the behaviour is undefined from
  there on. -/
  | undefined (p : Proc)
  /-- The iteration bound of `parse_loop` was reached. -/
  | stuck
  deriving DecidableEq, Repr

/-- What `main` does with the way a call ended. -/
def Step.of_outcome : Outcome → Step
  | Outcome.returned p => Step.prompt_again p
  | Outcome.exited status p => Step.terminated status p
  | Outcome.blocked p => Step.blocked p
  | Outcome.undefined p => Step.undefined p
  | Outcome.stuck _ => Step.stuck

/-- One iteration of the loop of `main` (lines 416-475). The argument is the bytes `fgets`
stored, `none` at end of input; as a string they end at the first NUL among them, and
line 427 cuts that string at its first `\r` or `\n`. `parse_line` stores into
`char *args[MAX_ARGS]` (line 439). -/
def main_step (o : Oracle) (fds : FdTable) : Option (List Char) → Step
  | none => Step.leave_loop
  | some raw =>
    let input_line :=
      (raw.takeWhile (fun c => c ≠ Char.ofNat 0)).takeWhile (fun c => c ≠ '\r' && c ≠ '\n')
    if input_line.length = 0 then Step.prompt_again ⟨fds, [], []⟩
    else if '|' ∈ input_line then
      Step.of_outcome (execute_piped_commands o fds input_line)
    else
      match parse_line MAX_ARGS (normalize_redirects (2 * MAX_INPUT_SIZE) input_line) with
      | ParseResult.unfinished => Step.stuck
      | ParseResult.out_of_bounds _ _ => Step.undefined ⟨fds, [], []⟩
      | ParseResult.done pc =>
        match pc.args with
        | [] => Step.prompt_again ⟨fds, [], []⟩
        | arg0 :: rest =>
          if arg0 = "exit".toList then Step.leave_loop
          else if arg0 = "cd".toList then
            match rest with
            | [] => Step.prompt_again ⟨fds, [], [Event.stderr "cd: expected argument\n".toList]⟩
            | dir :: _ =>
              if o.chdir_ok dir then Step.prompt_again ⟨fds, [], [Event.chdir dir]⟩
              else Step.prompt_again ⟨fds, [], [Event.chdir dir, Event.perror "cd".toList]⟩
          else if arg0 = "pwd".toList then
            if o.getcwd_ok then Step.prompt_again ⟨fds, [], [Event.print_cwd]⟩
            else Step.prompt_again ⟨fds, [], [Event.perror "pwd".toList]⟩
          else Step.of_outcome (execute_command o fds pc)

/-- The names the specification lists as built-in. -/
def builtin_names : List (List Char) :=
  ["exit".toList, "cd".toList, "pwd".toList, "mkdir".toList, "rmdir".toList, "ls".toList,
    "cp".toList]

/-- The oracle under which every system call succeeds. -/
def all_ok : Oracle :=
  ⟨fun _ => true, fun _ => true, fun _ => true, fun _ => true, fun _ => true, fun _ => true,
    true⟩

/-- The state of the interpreter process at the end of a call. -/
def Outcome.proc : Outcome → Proc
  | Outcome.returned p => p
  | Outcome.exited _ p => p
  | Outcome.blocked p => p
  | Outcome.undefined p => p
  | Outcome.stuck p => p

/-- The children forked during a call. -/
def Outcome.children (r : Outcome) : List Child := r.proc.children

/-- The descriptors open in the interpreter when a call has returned. -/
def Outcome.open_after : Outcome → Option (List Nat)
  | Outcome.returned p => some (open_fds p.fds)
  | _ => none

/-- The `pipe` calls the interpreter made during a call: stage, read end, write end. -/
def Outcome.pipes (r : Outcome) : List (Nat × Nat × Nat) :=
  r.proc.log.filterMap (fun e => match e with | Event.pipe i rd wr => some (i, rd, wr) | _ => none)

/-- The argument vectors for which one loop iteration of `main` forked a child. -/
def Step.spawned : Step → List (List (List Char))
  | Step.prompt_again p => p.children.map (fun c => c.args)
  | Step.terminated _ p => p.children.map (fun c => c.args)
  | Step.blocked p => p.children.map (fun c => c.args)
  | Step.undefined p => p.children.map (fun c => c.args)
  | _ => []

/-- The oracle under which `pipe` fails and everything else succeeds. -/
def pipe_fails : Oracle := { all_ok with pipe_ok := fun _ => false }

/-- The oracle under which `fork` fails and everything else succeeds. -/
def fork_fails : Oracle := { all_ok with fork_ok := fun _ => false }

/-- The oracle under which the child of the first stage never terminates (it fills the
pipe that nobody reads yet, say) and everything else succeeds. -/
def first_child_hangs : Oracle := { all_ok with wait_returns := fun i => decide (i ≠ 0) }

/-! ## parse_input -/

/-- The loop of `parse_input` (lines 26-29). The first argument is `MAX_ARGS - 1 - i`; the
non-null entries `args[0 .. i-1]` are accumulated, `args[i]` is overwritten by `NULL` at
line 30. -/
def parse_input_loop : Nat → Option (List Char) → List Char → List (List Char) → List (List Char)
  | 0, _, _, args => args
  | _ + 1, none, _, args => args
  | room + 1, some token, saved, args =>
    let r := strtok WS saved
    parse_input_loop room r.1 r.2 (args ++ [token])

/-- Source: `parse_input` (lines 23-31): the entries of `args` before the final `NULL`. -/
def parse_input (line : List Char) : List (List Char) :=
  parse_input_loop (MAX_ARGS - 1) (strtok WS line).1 (strtok WS line).2 []

/-! ## Inputs used below -/

/-- A line of 1022 characters, 512 times `>` and then 510 times `a`; its expansion has
2046 characters. -/
def long_redirect_line : List Char := List.replicate 512 '>' ++ List.replicate 510 'a'

/-- The line `a a ... a` of 64 one-letter words, 127 characters. -/
def sixty_four_words : List Char := [' '].intercalate (List.replicate 64 ['a'])

/-! ## Reference definitions taken from the specification -/

/-- The maximal non-empty runs of characters that are not in `delims`, left to right. -/
def fields (delims : List Char) (s : List Char) : List (List Char) :=
  (s.splitOnP (fun c => decide (c ∈ delims))).filter (fun t => decide (t ≠ []))

/-- The untruncated expansion: every `<` or `>` becomes space, the character, space. -/
def expand : List Char → List Char
  | [] => []
  | c :: cs => if c = '<' ∨ c = '>' then ' ' :: c :: ' ' :: expand cs else c :: expand cs

/-- The reference left-to-right scan of a token sequence. -/
def scan_tokens : List (List Char) → ParsedCommand → ParsedCommand
  | [], pc => pc
  | [t], pc =>
    if t = ['<'] then pc
    else if t = ['>'] then pc
    else { pc with args := pc.args ++ [t] }
  | t :: f :: rest, pc =>
    if t = ['<'] then scan_tokens rest { pc with input_file := some f }
    else if t = ['>'] then scan_tokens rest { pc with output_file := some f }
    else scan_tokens (f :: rest) { pc with args := pc.args ++ [t] }

/-! ## strtok and the maximal runs -/

theorem fields_nil (d : List Char) : fields d [] = [] := by
  simp [fields]

theorem fields_cons_delim (d : List Char) (c : Char) (cs : List Char) (h : c ∈ d) :
    fields d (c :: cs) = fields d cs := by
  simp [fields, h]

/-- The first piece of the split is the token `scanToken` reads, and the other pieces are
the split of what `scanToken` leaves. -/
theorem splitOnP_scanToken (d : List Char) (xs : List Char) :
    ∃ tl, xs.splitOnP (fun c => decide (c ∈ d)) = (scanToken d xs).1 :: tl ∧
      tl.filter (fun t => decide (t ≠ [])) = fields d (scanToken d xs).2 := by
  induction xs with
  | nil => exact ⟨[], by simp [scanToken], by simp [scanToken, fields]⟩
  | cons c cs ih =>
    by_cases h : c ∈ d
    · exact ⟨cs.splitOnP (fun c => decide (c ∈ d)), by simp [scanToken, h],
        by simp [scanToken, h, fields]⟩
    · obtain ⟨tl, h1, h2⟩ := ih
      exact ⟨tl, by simp [scanToken, h, h1, List.modifyHead], by simpa [scanToken, h] using h2⟩

theorem fields_skipDelims (d : List Char) (s : List Char) :
    fields d (skipDelims d s) = fields d s := by
  induction s with
  | nil => rfl
  | cons c cs ih =>
    by_cases h : c ∈ d
    · simp [skipDelims, h, ih, fields_cons_delim]
    · simp [skipDelims, h]

theorem skipDelims_head (d : List Char) (s : List Char) (c : Char) (cs : List Char)
    (h : skipDelims d s = c :: cs) : c ∉ d := by
  induction s with
  | nil => simp [skipDelims] at h
  | cons x xs ih =>
    by_cases hx : x ∈ d
    · simp only [skipDelims, hx, if_true] at h
      exact ih h
    · simp only [skipDelims, hx, if_false] at h
      cases h
      exact hx

theorem skipDelims_length (d : List Char) (s : List Char) :
    (skipDelims d s).length ≤ s.length := by
  induction s with
  | nil => simp [skipDelims]
  | cons x xs ih =>
    by_cases hx : x ∈ d
    · simp only [skipDelims, hx, if_true, List.length_cons]
      omega
    · simp [skipDelims, hx]

theorem scanToken_length (d : List Char) (s : List Char) :
    (scanToken d s).2.length ≤ s.length := by
  induction s with
  | nil => simp [scanToken]
  | cons x xs ih =>
    by_cases hx : x ∈ d
    · simp [scanToken, hx]
    · simp only [scanToken, hx, if_false, List.length_cons]
      omega

/-- A token returned by `strtok` is the first maximal run; the runs of the save pointer
are the remaining ones. After `NULL` the save pointer holds no run. -/
theorem strtok_fields (d : List Char) (s : List Char) :
    fields d s = (strtok d s).1.toList ++ fields d (strtok d s).2 := by
  rw [← fields_skipDelims]
  unfold strtok
  cases hs : skipDelims d s with
  | nil => simp [fields_nil]
  | cons c cs =>
    have hc : c ∉ d := skipDelims_head d s c cs hs
    obtain ⟨tl, h1, h2⟩ := splitOnP_scanToken d (c :: cs)
    have hne : (scanToken d (c :: cs)).1 ≠ [] := by simp [scanToken, hc]
    simp only [Option.toList, List.singleton_append]
    rw [← h2]
    simp [fields, h1, hne]

theorem strtok_none (d : List Char) (s : List Char) (h : (strtok d s).1 = none) :
    fields d s = [] ∧ (strtok d s).2 = [] := by
  have hf := strtok_fields d s
  unfold strtok at h hf ⊢
  cases hs : skipDelims d s with
  | nil => rw [hs] at hf; simpa [fields_nil] using hf
  | cons c cs => rw [hs] at h; simp at h

theorem strtok_some (d : List Char) (s : List Char) (t : List Char)
    (h : (strtok d s).1 = some t) : fields d s = t :: fields d (strtok d s).2 := by
  rw [strtok_fields d s, h]; rfl

theorem strtok_length (d : List Char) (s : List Char) (t : List Char)
    (h : (strtok d s).1 = some t) : (strtok d s).2.length < s.length := by
  unfold strtok at h ⊢
  have hl := skipDelims_length d s
  cases hs : skipDelims d s with
  | nil => rw [hs] at h; simp at h
  | cons c cs =>
    have hc : c ∉ d := skipDelims_head d s c cs hs
    have := scanToken_length d cs
    rw [hs] at hl
    simp only [scanToken, hc, if_false, List.length_cons] at hl ⊢
    omega

theorem fields_length_le_aux (d : List Char) (n : Nat) :
    ∀ s : List Char, s.length ≤ n → (fields d s).length ≤ s.length := by
  induction n with
  | zero =>
    intro s hs
    have : s = [] := List.length_eq_zero.mp (Nat.le_zero.mp hs)
    simp [this, fields_nil]
  | succ n ih =>
    intro s hs
    cases ht : (strtok d s).1 with
    | none => simp [(strtok_none d s ht).1]
    | some t =>
      have hl := strtok_length d s t ht
      have := ih (strtok d s).2 (by omega)
      rw [strtok_some d s t ht, List.length_cons]
      omega

theorem fields_length_le (d : List Char) (s : List Char) : (fields d s).length ≤ s.length :=
  fields_length_le_aux d s.length s (Nat.le_refl _)

theorem fields_ne_nil (d : List Char) (s : List Char) : [] ∉ fields d s := by
  simp [fields]

theorem mem_splitOnP_subset (p : Char → Bool) (xs : List Char) :
    ∀ t ∈ xs.splitOnP p, ∀ c ∈ t, c ∈ xs := by
  induction xs with
  | nil => intro t ht c hc; simp at ht; subst ht; simp at hc
  | cons x xs ih =>
    intro t ht c hc
    rw [List.splitOnP_cons] at ht
    by_cases hx : p x = true
    · simp only [hx, if_true, List.mem_cons] at ht
      rcases ht with rfl | ht
      · simp at hc
      · exact List.mem_cons_of_mem _ (ih t ht c hc)
    · simp only [hx, Bool.false_eq_true, if_false] at ht
      cases hsp : xs.splitOnP p with
      | nil => exact absurd hsp (List.splitOnP_ne_nil p xs)
      | cons h tl =>
        rw [hsp] at ht ih
        simp only [List.modifyHead, List.mem_cons] at ht
        rcases ht with rfl | ht
        · rcases List.mem_cons.mp hc with rfl | hc
          · exact List.mem_cons_self _ _
          · exact List.mem_cons_of_mem _ (ih h (List.mem_cons_self _ _) c hc)
        · exact List.mem_cons_of_mem _ (ih t (List.mem_cons_of_mem _ ht) c hc)

theorem mem_fields_subset (d : List Char) (s : List Char) :
    ∀ t ∈ fields d s, ∀ c ∈ t, c ∈ s := by
  intro t ht c hc
  exact mem_splitOnP_subset _ s t (List.mem_filter.mp ht).1 c hc

/-! ## parse_line is the reference scan -/

theorem scan_tokens_cons_other (t : List Char) (rest : List (List Char)) (pc : ParsedCommand)
    (h1 : t ≠ ['<']) (h2 : t ≠ ['>']) :
    scan_tokens (t :: rest) pc = scan_tokens rest { pc with args := pc.args ++ [t] } := by
  cases rest <;> simp [scan_tokens, h1, h2]

theorem scan_tokens_args_aux (n : Nat) : ∀ (toks : List (List Char)) (pc : ParsedCommand),
    toks.length ≤ n →
    ∃ extra, (scan_tokens toks pc).args = pc.args ++ extra ∧ extra.Sublist toks ∧
      ∀ a ∈ extra, a ≠ ['<'] ∧ a ≠ ['>'] := by
  induction n with
  | zero =>
    intro toks pc h
    have : toks = [] := List.length_eq_zero.mp (Nat.le_zero.mp h)
    subst this
    exact ⟨[], by simp [scan_tokens], List.Sublist.refl _, by simp⟩
  | succ n ih =>
    intro toks pc h
    match toks, h with
    | [], _ => exact ⟨[], by simp [scan_tokens], List.Sublist.refl _, by simp⟩
    | [t], _ =>
      by_cases h1 : t = ['<']
      · exact ⟨[], by simp [scan_tokens, h1], by simp, by simp⟩
      · by_cases h2 : t = ['>']
        · exact ⟨[], by simp [scan_tokens, h2], by simp, by simp⟩
        · exact ⟨[t], by simp [scan_tokens, h1, h2], List.Sublist.refl _, by simp [h1, h2]⟩
    | t :: f :: rest, h =>
      simp only [List.length_cons] at h
      by_cases h1 : t = ['<']
      · obtain ⟨extra, e1, e2, e3⟩ := ih rest { pc with input_file := some f } (by omega)
        exact ⟨extra, by simp [scan_tokens, h1, e1],
          (e2.cons f).cons t, e3⟩
      · by_cases h2 : t = ['>']
        · obtain ⟨extra, e1, e2, e3⟩ := ih rest { pc with output_file := some f } (by omega)
          exact ⟨extra, by simp [scan_tokens, h2, e1],
            (e2.cons f).cons t, e3⟩
        · obtain ⟨extra, e1, e2, e3⟩ :=
            ih (f :: rest) { pc with args := pc.args ++ [t] } (by simp; omega)
          refine ⟨t :: extra, by simp [scan_tokens, h1, h2, e1], e2.cons₂ t, ?_⟩
          intro a ha
          rcases List.mem_cons.mp ha with rfl | ha
          · exact ⟨h1, h2⟩
          · exact e3 a ha

theorem scan_tokens_args_length (toks : List (List Char)) (pc : ParsedCommand) :
    pc.args.length ≤ (scan_tokens toks pc).args.length := by
  obtain ⟨extra, e, _, _⟩ := scan_tokens_args_aux toks.length toks pc (Nat.le_refl _)
  rw [e, List.length_append]
  omega

/-- With enough iterations, and when the scan yields fewer arguments than `args` has
elements, the loop returns the scan. -/
theorem parse_loop_eq (slots fuel : Nat) : ∀ (s : List Char) (pc : ParsedCommand),
    (fields WS s).length + 1 ≤ fuel →
    (scan_tokens (fields WS s) pc).args.length < slots →
    parse_loop slots fuel (strtok WS s).1 (strtok WS s).2 pc =
      ParseResult.done (scan_tokens (fields WS s) pc) := by
  induction fuel with
  | zero => intro s pc h; omega
  | succ fuel ih =>
    intro s pc h hfit
    cases ht : (strtok WS s).1 with
    | none =>
      rw [(strtok_none WS s ht).1] at hfit ⊢
      simp only [scan_tokens] at hfit ⊢
      simp [parse_loop, hfit]
    | some t =>
      have hs := strtok_some WS s t ht
      rw [hs] at h hfit ⊢
      simp only [List.length_cons] at h
      by_cases h1 : t = ['<']
      · simp only [parse_loop, h1, if_true]
        cases hf : (strtok WS (strtok WS s).2).1 with
        | none =>
          obtain ⟨e1, e2⟩ := strtok_none WS _ hf
          rw [e1] at hfit ⊢
          rw [e2]
          simp only [h1, scan_tokens, if_true] at hfit ⊢
          cases fuel with
          | zero => omega
          | succ n => simp [strtok, skipDelims, parse_loop, setInput, hfit]
        | some f =>
          have hs2 := strtok_some WS _ f hf
          rw [hs2] at h hfit ⊢
          simp only [List.length_cons] at h
          simp only [h1, scan_tokens, if_true] at hfit ⊢
          rw [ih _ _ (by omega) (by simpa [setInput] using hfit)]
          simp [setInput]
      · by_cases h2 : t = ['>']
        · simp only [parse_loop, h2, if_true,
            if_neg (show ¬ (['>'] : List Char) = ['<'] by decide)]
          cases hf : (strtok WS (strtok WS s).2).1 with
          | none =>
            obtain ⟨e1, e2⟩ := strtok_none WS _ hf
            rw [e1] at hfit ⊢
            rw [e2]
            simp only [h2, scan_tokens, if_true,
              if_neg (show ¬ (['>'] : List Char) = ['<'] by decide)] at hfit ⊢
            cases fuel with
            | zero => omega
            | succ n => simp [strtok, skipDelims, parse_loop, setOutput, hfit]
          | some f =>
            have hs2 := strtok_some WS _ f hf
            rw [hs2] at h hfit ⊢
            simp only [List.length_cons] at h
            simp only [h2, scan_tokens, if_true,
              if_neg (show ¬ (['>'] : List Char) = ['<'] by decide)] at hfit ⊢
            rw [ih _ _ (by omega) (by simpa [setOutput] using hfit)]
            simp [setOutput]
        · rw [scan_tokens_cons_other t _ pc h1 h2] at hfit ⊢
          have hroom : pc.args.length < slots := by
            have := scan_tokens_args_length (fields WS (strtok WS s).2)
              { pc with args := pc.args ++ [t] }
            simp only [List.length_append, List.length_singleton] at this
            omega
          simp only [parse_loop, h1, h2, if_false, hroom, if_true]
          rw [ih _ _ (by omega) hfit]

/-- Whenever the scan of the tokens yields fewer arguments than `args` has elements,
`parse_line` returns the scan. -/
theorem parse_line_eq (slots : Nat) (line : List Char)
    (hfit : (scan_tokens (fields WS line) ParsedCommand.empty).args.length < slots) :
    parse_line slots line =
      ParseResult.done (scan_tokens (fields WS line) ParsedCommand.empty) := by
  unfold parse_line
  exact parse_loop_eq slots _ line _ (by have := fields_length_le WS line; omega) hfit

theorem scan_tokens_plain (toks : List (List Char)) :
    ∀ pc : ParsedCommand, (∀ t ∈ toks, t ≠ ['<'] ∧ t ≠ ['>']) →
      scan_tokens toks pc = ⟨pc.args ++ toks, pc.input_file, pc.output_file⟩ := by
  induction toks with
  | nil => intro pc _; simp [scan_tokens]
  | cons t rest ih =>
    intro pc h
    have ht := h t (List.mem_cons_self _ _)
    rw [scan_tokens_cons_other t rest pc ht.1 ht.2,
      ih _ (fun x hx => h x (List.mem_cons_of_mem _ hx))]
    simp

/-! ## normalize_redirects and the expansion -/

theorem expand_append (a b : List Char) : expand (a ++ b) = expand a ++ expand b := by
  induction a with
  | nil => rfl
  | cons c cs ih =>
    by_cases h : c = '<' ∨ c = '>'
    · simp [expand, h, ih]
    · simp [expand, h, ih]

theorem expand_plain (s : List Char) (h : ∀ c ∈ s, c ≠ '<' ∧ c ≠ '>') : expand s = s := by
  induction s with
  | nil => rfl
  | cons c cs ih =>
    have hc := h c (List.mem_cons_self _ _)
    have : ¬ (c = '<' ∨ c = '>') := by simp [hc.1, hc.2]
    simp [expand, this, ih (fun x hx => h x (List.mem_cons_of_mem _ hx))]

theorem expand_take_initial (src : List Char) (k : Nat) : expand (src.take k) <+: expand src := by
  refine ⟨expand (src.drop k), ?_⟩
  rw [← expand_append, List.take_append_drop]

theorem normalize_loop_spec (dstsz : Nat) : ∀ (src : List Char) (j : Nat), j < dstsz →
    (normalize_loop dstsz src j).length + j < dstsz ∧
      ∃ k, k ≤ src.length ∧ normalize_loop dstsz src j = expand (src.take k) := by
  intro src
  induction src with
  | nil => intro j hj; exact ⟨by simpa [normalize_loop] using hj, 0, by simp, by simp [normalize_loop, expand]⟩
  | cons c cs ih =>
    intro j hj
    by_cases hroom : j + 3 < dstsz
    · by_cases hm : c = '<' ∨ c = '>'
      · obtain ⟨hlen, k, hk, heq⟩ := ih (j + 3) hroom
        have hge : ¬ (j + 3 ≥ dstsz) := by omega
        refine ⟨?_, k + 1, by simp [hk], ?_⟩
        · simp only [normalize_loop, hroom, hm, hge, if_true, if_false, List.length_cons]
          omega
        · simp [normalize_loop, hroom, hm, heq, expand]
      · obtain ⟨hlen, k, hk, heq⟩ := ih (j + 1) (by omega)
        refine ⟨?_, k + 1, by simp [hk], ?_⟩
        · simp only [normalize_loop, hroom, hm, if_true, if_false, List.length_cons]
          omega
        · simp [normalize_loop, hroom, hm, heq, expand]
    · exact ⟨by simpa [normalize_loop, hroom] using hj, 0, by simp,
        by simp [normalize_loop, hroom, expand]⟩

/-- The loop copies the whole source when three bytes are free before its last
character. -/
theorem normalize_loop_complete (dstsz : Nat) : ∀ (pre : List Char) (c : Char) (j : Nat),
    j + (expand pre).length + 3 < dstsz →
      normalize_loop dstsz (pre ++ [c]) j = expand (pre ++ [c]) := by
  intro pre
  induction pre with
  | nil =>
    intro c j h
    have h3 : j + 3 < dstsz := by simpa [expand] using h
    have hge : ¬ (j + 3 ≥ dstsz) := by omega
    by_cases hm : c = '<' ∨ c = '>'
    · simp [normalize_loop, expand, h3, hm]
    · simp [normalize_loop, expand, h3, hm]
  | cons x xs ih =>
    intro c j h
    by_cases hm : x = '<' ∨ x = '>'
    · have hl : (expand (x :: xs)).length = (expand xs).length + 3 := by simp [expand, hm]
      have h3 : j + 3 < dstsz := by omega
      have := ih c (j + 3) (by omega)
      simp [normalize_loop, expand, h3, hm, this]
    · have hl : (expand (x :: xs)).length = (expand xs).length + 1 := by simp [expand, hm]
      have h3 : j + 3 < dstsz := by omega
      have := ih c (j + 1) (by omega)
      simp [normalize_loop, expand, h3, hm, this]

theorem expand_length_concat (pre : List Char) (c : Char) :
    (expand (pre ++ [c])).length =
      (expand pre).length + (if c = '<' ∨ c = '>' then 3 else 1) := by
  rw [expand_append]
  by_cases hm : c = '<' ∨ c = '>'
  · simp [expand, hm]
  · simp [expand, hm]

theorem normalize_loop_fits (dstsz : Nat) (src : List Char) (j : Nat)
    (h : j + (expand src).length + 3 ≤ dstsz) : normalize_loop dstsz src j = expand src := by
  rcases List.eq_nil_or_concat src with rfl | ⟨pre, c, rfl⟩
  · rfl
  · rw [List.concat_eq_append] at h ⊢
    apply normalize_loop_complete
    rw [expand_length_concat] at h
    split at h <;> omega

theorem normalize_stores_index (dstsz : Nat) : ∀ (src : List Char) (j : Nat), j < dstsz →
    ∀ w ∈ normalize_stores dstsz src j, w.1 < dstsz := by
  intro src
  induction src with
  | nil => intro j hj w hw; simp [normalize_stores] at hw; subst hw; exact hj
  | cons c cs ih =>
    intro j hj w hw
    by_cases hroom : j + 3 < dstsz
    · have hge : ¬ (j + 3 ≥ dstsz) := by omega
      by_cases hm : c = '<' ∨ c = '>'
      · simp only [normalize_stores, hroom, hm, hge, if_true, if_false, List.mem_cons] at hw
        rcases hw with rfl | rfl | rfl | hw
        · exact hj
        · show j + 1 < dstsz; omega
        · show j + 2 < dstsz; omega
        · exact ih (j + 3) hroom w hw
      · simp only [normalize_stores, hroom, hm, if_true, if_false, List.mem_cons] at hw
        rcases hw with rfl | hw
        · exact hj
        · exact ih (j + 1) (by omega) w hw
    · simp only [normalize_stores, hroom, if_false, List.mem_singleton] at hw
      subst hw; exact hj

theorem normalize_stores_content (dstsz : Nat) : ∀ (src : List Char) (j : Nat),
    (normalize_stores dstsz src j).map Prod.snd = normalize_loop dstsz src j ++ [Char.ofNat 0] ∧
    (normalize_stores dstsz src j).map Prod.fst =
      List.range' j ((normalize_loop dstsz src j).length + 1) := by
  intro src
  induction src with
  | nil => intro j; simp [normalize_stores, normalize_loop, List.range']
  | cons c cs ih =>
    intro j
    by_cases hroom : j + 3 < dstsz
    · have hge : ¬ (j + 3 ≥ dstsz) := by omega
      have hle : ¬ (dstsz ≤ j + 3) := by omega
      by_cases hm : c = '<' ∨ c = '>'
      · simp [normalize_stores, normalize_loop, hroom, hm, hle, ih, List.range']
      · simp [normalize_stores, normalize_loop, hroom, hm, ih, List.range']
    · simp [normalize_stores, normalize_loop, hroom, List.range']

/-! ## The splitting loop -/

theorem split_loop_eq (room : Nat) : ∀ (s : List Char) (commands : List (List Char)),
    split_loop room (strtok PIPE s).1 (strtok PIPE s).2 commands =
      commands ++ (fields PIPE s).take room := by
  induction room with
  | zero => intro s commands; simp [split_loop]
  | succ room ih =>
    intro s commands
    cases ht : (strtok PIPE s).1 with
    | none => simp [split_loop, (strtok_none PIPE s ht).1]
    | some t =>
      rw [strtok_some PIPE s t ht]
      simp only [split_loop]
      rw [ih]
      simp

theorem split_commands_eq (line : List Char) :
    split_commands line = (fields PIPE line).take MAX_PIPE_COMMANDS := by
  unfold split_commands
  rw [split_loop_eq]
  simp

/-! ## Descriptor tables -/

theorem fd_get_close (t : FdTable) : ∀ (x y : Nat),
    fd_get (fd_close t x) y = if y = x then none else fd_get t y := by
  induction t with
  | nil => intro x y; simp [fd_close, fd_get]
  | cons h tl ih =>
    intro x y
    cases x with
    | zero => cases y <;> simp [fd_close, fd_get]
    | succ x => cases y <;> simp [fd_close, fd_get, ih]

theorem fd_alloc_free (t : FdTable) (r : Res) : fd_get t (fd_alloc t r).1 = none := by
  induction t with
  | nil => simp [fd_alloc, fd_get]
  | cons h tl ih =>
    cases h with
    | none => simp [fd_alloc, fd_get]
    | some x => simpa [fd_alloc, fd_get] using ih

theorem fd_get_alloc (t : FdTable) (r : Res) : ∀ y : Nat,
    fd_get (fd_alloc t r).2 y = if y = (fd_alloc t r).1 then some r else fd_get t y := by
  induction t with
  | nil => intro y; cases y <;> simp [fd_alloc, fd_get]
  | cons h tl ih =>
    intro y
    cases h with
    | none => cases y <;> simp [fd_alloc, fd_get]
    | some x => cases y <;> simp [fd_alloc, fd_get, ih]

/-- A successful `pipe` returns two distinct descriptors that were closed, and changes no
other slot. -/
theorem sys_pipe_spec (t : FdTable) (i : Nat) :
    fd_get t (sys_pipe t i).1.1 = none ∧ fd_get t (sys_pipe t i).1.2 = none ∧
    (sys_pipe t i).1.1 ≠ (sys_pipe t i).1.2 ∧
    ∀ y, fd_get (sys_pipe t i).2 y =
      if y = (sys_pipe t i).1.2 then some (Res.pipe_write i)
      else if y = (sys_pipe t i).1.1 then some (Res.pipe_read i) else fd_get t y := by
  have h1 := fd_alloc_free t (Res.pipe_read i)
  have h2 := fd_alloc_free (fd_alloc t (Res.pipe_read i)).2 (Res.pipe_write i)
  have h3 := fd_get_alloc t (Res.pipe_read i)
  rw [h3] at h2
  simp only [sys_pipe]
  by_cases e : (fd_alloc (fd_alloc t (Res.pipe_read i)).2 (Res.pipe_write i)).1 =
      (fd_alloc t (Res.pipe_read i)).1
  · simp [e] at h2
  · simp only [e, if_false] at h2
    refine ⟨h1, h2, fun h => e h.symm, ?_⟩
    intro y
    rw [fd_get_alloc, fd_get_alloc]

/-- Frame of the loop of `execute_piped_commands` when every `pipe` and `fork` succeeds,
every `wait` returns, every command fits `args` and descriptor 0 is open: before
iteration `i` the parent table is the table `fds0` of the start of the call, plus, for
`i > 0`, the descriptor `in_fd`, which was closed in `fds0` and now holds the read end of
the pipe of iteration `i - 1`. The same holds at the return, with the number of commands
for `i`. -/
theorem pipeline_loop_frame (o : Oracle) (hp : ∀ i, o.pipe_ok i = true)
    (hf : ∀ i, o.fork_ok i = true) (hw : ∀ i, o.wait_returns i = true)
    (fds0 : FdTable) (a : Res) (h0 : fd_get fds0 0 = some a) (n : Nat) :
    ∀ (rest : List (List Char)) (i in_fd : Nat) (p : Proc),
      (∀ cmd ∈ rest,
        (scan_tokens (fields WS cmd) ParsedCommand.empty).args.length < MAX_ARGS) →
      (i = 0 → in_fd = 0 ∧ ∀ y, fd_get p.fds y = fd_get fds0 y) →
      (i ≠ 0 → fd_get fds0 in_fd = none ∧
        ∀ y, fd_get p.fds y =
          if y = in_fd then some (Res.pipe_read (i - 1)) else fd_get fds0 y) →
      ∃ q fin, pipeline_loop o n rest i in_fd p = Outcome.returned q ∧
        (i + rest.length = 0 → fin = 0 ∧ ∀ y, fd_get q.fds y = fd_get fds0 y) ∧
        (i + rest.length ≠ 0 → fd_get fds0 fin = none ∧
          ∀ y, fd_get q.fds y =
            if y = fin then some (Res.pipe_read (i + rest.length - 1)) else fd_get fds0 y) := by
  intro rest
  induction rest with
  | nil =>
    intro i in_fd p _ hz hnz
    exact ⟨p, in_fd, by simp [pipeline_loop], by simpa using hz, by simpa using hnz⟩
  | cons cmd rest ih =>
    intro i in_fd p hfit hz hnz
    obtain ⟨sr, sw, srw, sget⟩ := sys_pipe_spec p.fds i
    have hnz0 : i ≠ 0 → in_fd ≠ 0 := by
      intro hi e
      have := (hnz hi).1
      rw [e, h0] at this
      cases this
    have hzi : in_fd = 0 ↔ i = 0 := ⟨fun e => by_contra fun hi => hnz0 hi e, fun e => (hz e).1⟩
    -- the two new descriptors were closed at the start of the call
    have hagree : ∀ y, (i = 0 ∨ y ≠ in_fd) → fd_get p.fds y = fd_get fds0 y := by
      intro y hy
      by_cases hi : i = 0
      · exact (hz hi).2 y
      · rcases hy with hy | hy
        · exact absurd hy hi
        · rw [(hnz hi).2 y, if_neg hy]
    have hrin : i ≠ 0 → (sys_pipe p.fds i).1.1 ≠ in_fd := by
      intro hi e
      rw [e, (hnz hi).2 in_fd, if_pos rfl] at sr
      cases sr
    have hwin : i ≠ 0 → (sys_pipe p.fds i).1.2 ≠ in_fd := by
      intro hi e
      rw [e, (hnz hi).2 in_fd, if_pos rfl] at sw
      cases sw
    have hr0 : fd_get fds0 (sys_pipe p.fds i).1.1 = none := by
      rw [← hagree _ (by by_cases hi : i = 0; exact Or.inl hi; exact Or.inr (hrin hi))]
      exact sr
    have hw0 : fd_get fds0 (sys_pipe p.fds i).1.2 = none := by
      rw [← hagree _ (by by_cases hi : i = 0; exact Or.inl hi; exact Or.inr (hwin hi))]
      exact sw
    have hstep : ∀ (fds1 : FdTable) (ch : List Child) (log1 : List Event),
        (∀ y, fd_get fds1 y =
          if y = (sys_pipe p.fds i).1.1 then some (Res.pipe_read i) else fd_get fds0 y) →
        ∃ q fin, pipeline_loop o n rest (i + 1) (sys_pipe p.fds i).1.1 ⟨fds1, ch, log1⟩ =
            Outcome.returned q ∧
          (i + (cmd :: rest).length = 0 → fin = 0 ∧ ∀ y, fd_get q.fds y = fd_get fds0 y) ∧
          (i + (cmd :: rest).length ≠ 0 → fd_get fds0 fin = none ∧
            ∀ y, fd_get q.fds y =
              if y = fin then some (Res.pipe_read (i + (cmd :: rest).length - 1))
              else fd_get fds0 y) := by
      intro fds1 ch log1 hfr
      obtain ⟨q, fin, e, _, e2⟩ := ih (i + 1) (sys_pipe p.fds i).1.1 ⟨fds1, ch, log1⟩
        (fun c hc => hfit c (List.mem_cons_of_mem _ hc))
        (fun e => absurd e (Nat.succ_ne_zero i))
        (fun _ => ⟨hr0, by simpa using hfr⟩)
      have hlen : i + (cmd :: rest).length = i + 1 + rest.length := by
        simp only [List.length_cons]; omega
      refine ⟨q, fin, e, fun h => by simp at h, fun _ => ?_⟩
      rw [hlen]
      exact e2 (by omega)
    simp only [pipeline_loop, hp, hf, hw]
    rw [parse_line_eq MAX_ARGS cmd (hfit cmd (List.mem_cons_self _ _))]
    simp only [Bool.true_eq_false, if_false]
    by_cases hne : in_fd = 0
    · have hi : i = 0 := hzi.mp hne
      simp only [hne, ne_eq, not_true_eq_false, if_false]
      refine hstep _ _ _ ?_
      intro y
      rw [fd_get_close, sget, hagree y (Or.inl hi)]
      by_cases e1 : y = (sys_pipe p.fds i).1.2
      · have : y ≠ (sys_pipe p.fds i).1.1 := fun e => srw (e.symm.trans e1)
        simp [e1, Ne.symm srw, hw0]
      · simp [e1]
    · have hi : i ≠ 0 := mt hzi.mpr hne
      simp only [hne, ne_eq, not_false_eq_true, if_true]
      refine hstep _ _ _ ?_
      intro y
      rw [fd_get_close, fd_get_close, sget]
      by_cases e0 : y = in_fd
      · have : y ≠ (sys_pipe p.fds i).1.1 := fun e => hrin hi (e.symm.trans e0)
        simp [e0, Ne.symm (hrin hi), (hnz hi).1]
      · by_cases e1 : y = (sys_pipe p.fds i).1.2
        · simp [e1, Ne.symm srw, hw0, hwin hi]
        · simp [e0, e1, hagree y (Or.inr e0)]

/-- When every `pipe` and `fork` succeeds, every child terminates, every command fits
`args` and descriptor 0 is open, a call of `execute_piped_commands` that runs at least
one command returns with exactly one more descriptor open than before: the read end of
the pipe of the last iteration, at a descriptor that was closed before the call. -/
theorem pipeline_leaves_read_end_open (o : Oracle) (hp : ∀ i, o.pipe_ok i = true)
    (hf : ∀ i, o.fork_ok i = true) (hw : ∀ i, o.wait_returns i = true)
    (fds : FdTable) (a : Res) (h0 : fd_get fds 0 = some a)
    (line : List Char) (hne : split_commands line ≠ [])
    (hfit : ∀ cmd ∈ split_commands line,
      (scan_tokens (fields WS cmd) ParsedCommand.empty).args.length < MAX_ARGS) :
    ∃ q fin, execute_piped_commands o fds line = Outcome.returned q ∧
      fd_get fds fin = none ∧
      ∀ y, fd_get q.fds y =
        if y = fin then some (Res.pipe_read ((split_commands line).length - 1))
        else fd_get fds y := by
  obtain ⟨q, fin, e, _, e2⟩ :=
    pipeline_loop_frame o hp hf hw fds a h0 (split_commands line).length (split_commands line)
      0 0 ⟨fds, [], []⟩ hfit (fun _ => ⟨rfl, fun _ => rfl⟩) (fun h => absurd rfl h)
  have hpos : 0 + (split_commands line).length ≠ 0 := by
    simpa using hne
  obtain ⟨f1, f2⟩ := e2 hpos
  exact ⟨q, fin, e, f1, by simpa using f2⟩

/-- A failing `pipe` in the first iteration makes `execute_piped_commands` end the
interpreter process, whatever the line, as soon as its first command fits `args`. -/
theorem pipeline_exits_when_pipe_fails (o : Oracle) (h : o.pipe_ok 0 = false)
    (fds : FdTable) (line : List Char) (cmd : List Char) (rest : List (List Char))
    (hs : split_commands line = cmd :: rest)
    (hfit : (scan_tokens (fields WS cmd) ParsedCommand.empty).args.length < MAX_ARGS) :
    execute_piped_commands o fds line =
      Outcome.exited EXIT_FAILURE ⟨fds, [], [Event.perror "pipe".toList]⟩ := by
  unfold execute_piped_commands
  rw [hs]
  simp [pipeline_loop, parse_line_eq MAX_ARGS cmd hfit, h]

/-! ## parse_input keeps to its array -/

theorem parse_input_loop_eq (room : Nat) : ∀ (s : List Char) (args : List (List Char)),
    parse_input_loop room (strtok WS s).1 (strtok WS s).2 args =
      args ++ (fields WS s).take room := by
  induction room with
  | zero => intro s args; simp [parse_input_loop]
  | succ room ih =>
    intro s args
    cases ht : (strtok WS s).1 with
    | none => simp [parse_input_loop, (strtok_none WS s ht).1]
    | some t =>
      rw [strtok_some WS s t ht]
      simp only [parse_input_loop]
      rw [ih]
      simp

/-- The sibling parser `parse_input` stops at `MAX_ARGS - 1` arguments. -/
theorem parse_input_bounded (line : List Char) :
    parse_input line = (fields WS line).take (MAX_ARGS - 1) ∧
      (parse_input line).length ≤ MAX_ARGS - 1 := by
  have h : parse_input line = (fields WS line).take (MAX_ARGS - 1) := by
    unfold parse_input
    rw [parse_input_loop_eq]
    simp
  refine ⟨h, ?_⟩
  rw [h, List.length_take]
  exact Nat.min_le_left _ _

/-! ## Calls that do not return -/

set_option maxRecDepth 100000 in
/-- Three runs of `execute_piped_commands` from a terminal. When the first child never
terminates, the parent stays in the first `wait` with that child alone forked. A blank
stage gets a child that calls `execvp(NULL, args)`. A first segment of 64 words makes
`parse_line` store outside `args` before anything is forked. -/
theorem pipeline_runs_that_stop_early :
    execute_piped_commands first_child_hangs initial_fds "seq 1 100000 | wc -l".toList =
      Outcome.blocked
        ⟨(sys_pipe initial_fds 0).2,
          [⟨["seq".toList, "1".toList, "100000".toList],
            [some (Res.inherited 0), some (Res.pipe_write 0), some (Res.inherited 2), none,
              none],
            ChildEnd.image_replaced⟩],
          [Event.pipe 0 3 4, Event.fork 0, Event.wait]⟩ ∧
    (execute_piped_commands all_ok initial_fds "ls | | wc".toList).children.map
        (fun c => (c.args, c.fate)) =
      [(["ls".toList], ChildEnd.image_replaced), ([], ChildEnd.exec_null),
        (["wc".toList], ChildEnd.image_replaced)] ∧
    execute_piped_commands all_ok initial_fds (sixty_four_words ++ " | wc".toList) =
      Outcome.undefined ⟨initial_fds, [], []⟩ := by
  refine ⟨by rfl, by rfl, by rfl⟩

/-! ## The claims -/

set_option maxRecDepth 100000 in
/-- C1, counterexample: the line of 64 one-letter words has 127 characters and none of
`<`, `>`, `|`, and its 64 words are its maximal runs of non-blank characters; yet
`parse_line`, storing into the 64 elements of `args`, does not return them: after
`args[0]` to `args[63]` its next store is outside the array. -/
theorem C1_counterexample :
    sixty_four_words.length ≤ MAX_INPUT_SIZE - 1 ∧
    (∀ c ∈ sixty_four_words, c ≠ '<' ∧ c ≠ '>' ∧ c ≠ '|') ∧
    (fields WS sixty_four_words).length = 64 ∧
    parse_line MAX_ARGS (normalize_redirects (2 * MAX_INPUT_SIZE) sixty_four_words) ≠
      ParseResult.done ⟨fields WS sixty_four_words, none, none⟩ := by
  refine ⟨by decide, by decide, by rfl, by decide⟩

/-- C1, amended: for every line of at most `MAX_INPUT_SIZE - 1` characters without `<`,
`>` and `|` that has at most `MAX_ARGS - 1` words, `normalize_redirects` into the scratch
buffer of `2 * MAX_INPUT_SIZE` bytes followed by `parse_line` on the `MAX_ARGS` elements
of `args` returns, with every store inside the array, exactly the maximal non-empty runs
of characters other than space, tab and newline as arguments, in order; no argument is
empty and both filenames are unset. -/
theorem C1_plain_line_arguments (line : List Char)
    (hlen : line.length ≤ MAX_INPUT_SIZE - 1)
    (hplain : ∀ c ∈ line, c ≠ '<' ∧ c ≠ '>' ∧ c ≠ '|')
    (hwords : (fields WS line).length ≤ MAX_ARGS - 1) :
    parse_line MAX_ARGS (normalize_redirects (2 * MAX_INPUT_SIZE) line) =
        ParseResult.done ⟨fields WS line, none, none⟩ ∧
      [] ∉ fields WS line := by
  have hp : ∀ c ∈ line, c ≠ '<' ∧ c ≠ '>' := fun c hc => ⟨(hplain c hc).1, (hplain c hc).2.1⟩
  have hexp : expand line = line := expand_plain line hp
  have hnorm : normalize_redirects (2 * MAX_INPUT_SIZE) line = line := by
    unfold normalize_redirects
    rw [normalize_loop_fits _ line 0 (by rw [hexp]; simp only [MAX_INPUT_SIZE] at hlen ⊢; omega),
      hexp]
  have hscan : scan_tokens (fields WS line) ParsedCommand.empty = ⟨fields WS line, none, none⟩ := by
    rw [scan_tokens_plain]
    · simp [ParsedCommand.empty]
    · intro t ht
      constructor
      · intro e
        exact (hp '<' (mem_fields_subset WS line t ht '<' (by simp [e]))).1 rfl
      · intro e
        exact (hp '>' (mem_fields_subset WS line t ht '>' (by simp [e]))).2 rfl
  refine ⟨?_, fields_ne_nil WS line⟩
  rw [hnorm, parse_line_eq MAX_ARGS line (by rw [hscan]; simp only [MAX_ARGS] at hwords ⊢; omega),
    hscan]

/-- Witness of the amended C1 at the line `ls -l  /tmp`. -/
theorem C1_plain_line_arguments_witness :
    "ls -l  /tmp".toList.length ≤ MAX_INPUT_SIZE - 1 ∧
    (∀ c ∈ "ls -l  /tmp".toList, c ≠ '<' ∧ c ≠ '>' ∧ c ≠ '|') ∧
    (fields WS "ls -l  /tmp".toList).length ≤ MAX_ARGS - 1 ∧
    (parse_line MAX_ARGS (normalize_redirects (2 * MAX_INPUT_SIZE) "ls -l  /tmp".toList) =
        ParseResult.done ⟨fields WS "ls -l  /tmp".toList, none, none⟩ ∧
      [] ∉ fields WS "ls -l  /tmp".toList) :=
  ⟨by decide, by decide, by decide,
    C1_plain_line_arguments "ls -l  /tmp".toList (by decide) (by decide) (by decide)⟩

/-- C2, counterexample: `long_redirect_line` has no `|` and 1022 characters, its
expansion (2046 characters and the terminator) fits the scratch buffer of 2048 bytes, yet
`normalize_redirects` drops its last character and `parse_line` of the result differs from
`parse_line` of the expansion. -/
theorem C2_counterexample :
    '|' ∉ long_redirect_line ∧
    long_redirect_line.length ≤ MAX_INPUT_SIZE - 1 ∧
    (expand long_redirect_line).length + 1 ≤ 2 * MAX_INPUT_SIZE ∧
    parse_line MAX_ARGS (normalize_redirects (2 * MAX_INPUT_SIZE) long_redirect_line) ≠
      parse_line MAX_ARGS (expand long_redirect_line) := by
  decide!

/-- C2, amended: whenever the expansion of the line leaves two bytes of the buffer unused
besides the terminator, or fits the buffer and the line ends in `<` or `>`,
`normalize_redirects` produces the expansion itself, so `parse_line` ends in the same way
on both, with the same arguments and filenames, whatever the size of `args`;
`echo a<b.txt` and `echo a < b.txt` both parse to the arguments `echo`, `a`, the input
filename `b.txt` and no output filename. -/
theorem C2_normalize_then_parse (dstsz slots : Nat) (line : List Char)
    (hfit : (expand line).length + 3 ≤ dstsz ∨
      ((expand line).length + 1 ≤ dstsz ∧ ∃ pre c, line = pre ++ [c] ∧ (c = '<' ∨ c = '>'))) :
    normalize_redirects dstsz line = expand line ∧
    parse_line slots (normalize_redirects dstsz line) = parse_line slots (expand line) ∧
    parse_line MAX_ARGS (normalize_redirects (2 * MAX_INPUT_SIZE) "echo a<b.txt".toList) =
      ParseResult.done ⟨["echo".toList, "a".toList], some "b.txt".toList, none⟩ ∧
    parse_line MAX_ARGS (normalize_redirects (2 * MAX_INPUT_SIZE) "echo a < b.txt".toList) =
      ParseResult.done ⟨["echo".toList, "a".toList], some "b.txt".toList, none⟩ := by
  have h : normalize_redirects dstsz line = expand line := by
    unfold normalize_redirects
    rcases hfit with h | ⟨h, pre, c, rfl, hc⟩
    · exact normalize_loop_fits dstsz line 0 (by omega)
    · apply normalize_loop_complete
      rw [expand_length_concat, if_pos hc] at h
      omega
  exact ⟨h, by rw [h], by rfl, by rfl⟩

/-- Witness of the amended C2 at the line `sort<in>out` and the buffers of `main`. -/
theorem C2_normalize_then_parse_witness :
    ((expand "sort<in>out".toList).length + 3 ≤ 2 * MAX_INPUT_SIZE ∨
      ((expand "sort<in>out".toList).length + 1 ≤ 2 * MAX_INPUT_SIZE ∧
        ∃ pre c, "sort<in>out".toList = pre ++ [c] ∧ (c = '<' ∨ c = '>'))) ∧
    (normalize_redirects (2 * MAX_INPUT_SIZE) "sort<in>out".toList =
        expand "sort<in>out".toList ∧
      parse_line MAX_ARGS (normalize_redirects (2 * MAX_INPUT_SIZE) "sort<in>out".toList) =
        parse_line MAX_ARGS (expand "sort<in>out".toList) ∧
      parse_line MAX_ARGS (normalize_redirects (2 * MAX_INPUT_SIZE) "echo a<b.txt".toList) =
        ParseResult.done ⟨["echo".toList, "a".toList], some "b.txt".toList, none⟩ ∧
      parse_line MAX_ARGS (normalize_redirects (2 * MAX_INPUT_SIZE) "echo a < b.txt".toList) =
        ParseResult.done ⟨["echo".toList, "a".toList], some "b.txt".toList, none⟩) :=
  ⟨Or.inl (by decide),
    C2_normalize_then_parse (2 * MAX_INPUT_SIZE) MAX_ARGS "sort<in>out".toList
      (Or.inl (by decide))⟩

/-- C3: for every line the splitter of `execute_piped_commands` stores the first
`min k MAX_PIPE_COMMANDS` of the `k` maximal non-empty `|`-free runs of the line, in
order; it never stores more than 5, a longer sequence keeps its first five unchanged, and
`cmd1 | cmd2 | cmd3` gives its three segments in order. -/
theorem C3_split_commands (line : List Char) :
    split_commands line = (fields PIPE line).take MAX_PIPE_COMMANDS ∧
    (split_commands line).length = min (fields PIPE line).length MAX_PIPE_COMMANDS ∧
    (split_commands line).length ≤ 5 ∧
    (5 < (fields PIPE line).length →
      (split_commands line).length = 5 ∧ split_commands line <+: fields PIPE line) ∧
    split_commands "cmd1 | cmd2 | cmd3".toList =
      ["cmd1 ".toList, " cmd2 ".toList, " cmd3".toList] := by
  have h := split_commands_eq line
  have hl : (split_commands line).length = min (fields PIPE line).length MAX_PIPE_COMMANDS := by
    rw [h, List.length_take, Nat.min_comm]
  refine ⟨h, hl, ?_, ?_, by rfl⟩
  · rw [hl]; exact Nat.min_le_right _ _
  · intro hk
    refine ⟨?_, ?_⟩
    · rw [hl]; simp only [MAX_PIPE_COMMANDS]; omega
    · rw [h]; exact ⟨_, List.take_append_drop _ _⟩

set_option maxRecDepth 100000 in
/-- C4, counterexample: the segment of 64 one-letter words has 64 tokens, none of them
`<` or `>`, so the reference scan appends all 64; `parse_line`, storing into the 64
elements of `args`, does not return that result: after `args[0]` to `args[63]` its next
store is outside the array. -/
theorem C4_counterexample :
    (scan_tokens (fields WS sixty_four_words) ParsedCommand.empty).args.length = 64 ∧
    parse_line MAX_ARGS sixty_four_words ≠
      ParseResult.done (scan_tokens (fields WS sixty_four_words) ParsedCommand.empty) := by
  refine ⟨by rfl, by decide⟩

/-- C4, amended: for every command segment whose reference scan yields fewer arguments
than `args` has elements (at most 63 for the `MAX_ARGS` elements both callers pass),
`parse_line` returns, with every store inside the array, the result of the reference scan
of its whitespace-separated tokens: `<` or `>` takes the next token, when there is one, as
the input or output filename and both are left out of the arguments, a final `<` or `>`
is dropped, every other token is appended; no argument is `<` or `>` and the arguments
are a subsequence of the tokens. -/
theorem C4_parse_line_is_scan (slots : Nat) (line : List Char)
    (hfit : (scan_tokens (fields WS line) ParsedCommand.empty).args.length < slots) :
    parse_line slots line =
      ParseResult.done (scan_tokens (fields WS line) ParsedCommand.empty) ∧
    (∀ a ∈ (scan_tokens (fields WS line) ParsedCommand.empty).args,
      a ≠ ['<'] ∧ a ≠ ['>']) ∧
    ((scan_tokens (fields WS line) ParsedCommand.empty).args).Sublist (fields WS line) := by
  obtain ⟨extra, e1, e2, e3⟩ :=
    scan_tokens_args_aux (fields WS line).length (fields WS line) ParsedCommand.empty
      (Nat.le_refl _)
  have e : (scan_tokens (fields WS line) ParsedCommand.empty).args = extra := by
    rw [e1]; simp [ParsedCommand.empty]
  exact ⟨parse_line_eq slots line hfit, by rw [e]; exact e3, by rw [e]; exact e2⟩

/-- Witness of the amended C4 at the segment `sort -r < in.txt > out.txt` and the
`MAX_ARGS` elements of `args`. -/
theorem C4_parse_line_is_scan_witness :
    (scan_tokens (fields WS "sort -r < in.txt > out.txt".toList)
      ParsedCommand.empty).args.length < MAX_ARGS ∧
    (parse_line MAX_ARGS "sort -r < in.txt > out.txt".toList =
        ParseResult.done
          (scan_tokens (fields WS "sort -r < in.txt > out.txt".toList) ParsedCommand.empty) ∧
      (∀ a ∈ (scan_tokens (fields WS "sort -r < in.txt > out.txt".toList)
          ParsedCommand.empty).args, a ≠ ['<'] ∧ a ≠ ['>']) ∧
      ((scan_tokens (fields WS "sort -r < in.txt > out.txt".toList)
          ParsedCommand.empty).args).Sublist (fields WS "sort -r < in.txt > out.txt".toList)) :=
  ⟨by decide, C4_parse_line_is_scan MAX_ARGS "sort -r < in.txt > out.txt".toList (by decide)⟩

/-- C8: for every source and every capacity `dstsz ≥ 1`, every store of
`normalize_redirects`, the terminator included, is at an index below `dstsz`; the stores
go to the indices 0, 1, 2, ... in turn, the string produced has at most `dstsz - 1`
characters, and it is a prefix of the untruncated expansion, namely the expansion of the
first `k` source characters for some `k`, so no triple is split. -/
theorem C8_normalize_within_capacity (src : List Char) (dstsz : Nat) (h : 1 ≤ dstsz) :
    (∀ w ∈ normalize_stores dstsz src 0, w.1 < dstsz) ∧
    (normalize_stores dstsz src 0).map Prod.snd =
      normalize_redirects dstsz src ++ [Char.ofNat 0] ∧
    (normalize_stores dstsz src 0).map Prod.fst =
      List.range ((normalize_redirects dstsz src).length + 1) ∧
    (normalize_redirects dstsz src).length ≤ dstsz - 1 ∧
    normalize_redirects dstsz src <+: expand src ∧
    ∃ k, k ≤ src.length ∧ normalize_redirects dstsz src = expand (src.take k) := by
  obtain ⟨hlen, k, hk, heq⟩ := normalize_loop_spec dstsz src 0 (by omega)
  refine ⟨normalize_stores_index dstsz src 0 (by omega),
    (normalize_stores_content dstsz src 0).1, ?_, ?_, ?_, k, hk, heq⟩
  · rw [(normalize_stores_content dstsz src 0).2, List.range_eq_range']; rfl
  · unfold normalize_redirects; omega
  · unfold normalize_redirects; rw [heq]; exact expand_take_initial src k

/-- Witness of C8 at the source `a>b>c` and capacity 6. -/
theorem C8_normalize_within_capacity_witness :
    1 ≤ 6 ∧
    ((∀ w ∈ normalize_stores 6 "a>b>c".toList 0, w.1 < 6) ∧
      (normalize_stores 6 "a>b>c".toList 0).map Prod.snd =
        normalize_redirects 6 "a>b>c".toList ++ [Char.ofNat 0] ∧
      (normalize_stores 6 "a>b>c".toList 0).map Prod.fst =
        List.range ((normalize_redirects 6 "a>b>c".toList).length + 1) ∧
      (normalize_redirects 6 "a>b>c".toList).length ≤ 6 - 1 ∧
      normalize_redirects 6 "a>b>c".toList <+: expand "a>b>c".toList ∧
      ∃ k, k ≤ "a>b>c".toList.length ∧
        normalize_redirects 6 "a>b>c".toList = expand ("a>b>c".toList.take k)) :=
  ⟨by decide, C8_normalize_within_capacity "a>b>c".toList 6 (by decide)⟩

set_option maxRecDepth 100000 in
/-- C9, the code at the failing input: the line of 64 one-letter words has 127 characters;
`parse_line`, called on the `MAX_ARGS` elements of `args`, stores 64 arguments, `args[0]`
to `args[63]`, and its next store, the final `NULL`, goes to index 64 = `MAX_ARGS`,
outside the array. With one more element it would return those 64 arguments. The sibling
`parse_input` stores 63 for the same line. -/
theorem C9_sixty_four_arguments :
    sixty_four_words.length = 127 ∧
    parse_line MAX_ARGS (normalize_redirects (2 * MAX_INPUT_SIZE) sixty_four_words) =
      ParseResult.out_of_bounds ⟨List.replicate 64 ['a'], none, none⟩ MAX_ARGS ∧
    parse_line (MAX_ARGS + 1) (normalize_redirects (2 * MAX_INPUT_SIZE) sixty_four_words) =
      ParseResult.done ⟨List.replicate 64 ['a'], none, none⟩ ∧
    (List.replicate 64 ['a']).length = MAX_ARGS ∧
    (parse_input sixty_four_words).length = MAX_ARGS - 1 := by
  refine ⟨by rfl, by rfl, by rfl, by rfl, by rfl⟩

/-- C5, the code at the failing input: `ls` is one of the names listed as built-in, and
for the line `ls` with every system call succeeding `main` forks a child that calls
`execvp` with the argument vector `ls`; for `pwd | wc` a child is forked for `pwd` too. -/
theorem C5_ls_is_forked :
    "ls".toList ∈ builtin_names ∧ "pwd".toList ∈ builtin_names ∧
    main_step all_ok initial_fds (some "ls\n".toList) =
      Step.prompt_again
        ⟨initial_fds, [⟨["ls".toList], initial_fds, ChildEnd.image_replaced⟩],
          [Event.fork 0, Event.wait]⟩ ∧
    (main_step all_ok initial_fds (some "pwd | wc\n".toList)).spawned =
      [["pwd".toList], ["wc".toList]] := by
  refine ⟨by decide, by decide, by rfl, by rfl⟩

/-- C6, the code at the failing input: when `pipe` fails, or when `fork` fails, while the
line `ls | wc` is run, the interpreter process itself calls `exit(EXIT_FAILURE)`; when
`fork` fails for the single command `ls`, `execute_command` reports it and control is
back at the prompt. -/
theorem C6_pipeline_failure_exits :
    main_step pipe_fails initial_fds (some "ls | wc\n".toList) =
      Step.terminated EXIT_FAILURE ⟨initial_fds, [], [Event.perror "pipe".toList]⟩ ∧
    main_step fork_fails initial_fds (some "ls | wc\n".toList) =
      Step.terminated EXIT_FAILURE
        ⟨(sys_pipe initial_fds 0).2, [],
          [Event.pipe 0 3 4, Event.perror "fork".toList]⟩ ∧
    main_step fork_fails initial_fds (some "ls\n".toList) =
      Step.prompt_again ⟨initial_fds, [], [Event.perror "fork failed".toList]⟩ := by
  refine ⟨by rfl, by rfl, by rfl⟩

/-- C10, the code at the failing input: for `ls | wc` (two stages, every call succeeding,
descriptors 0, 1 and 2 open before) the parent calls `pipe` in both iterations, also in
the last one, and returns with descriptor 4, the read end of the second pipe, still
open. -/
theorem C10_read_end_left_open :
    open_fds initial_fds = [0, 1, 2] ∧
    (split_commands "ls | wc".toList).length = 2 ∧
    (execute_piped_commands all_ok initial_fds "ls | wc".toList).pipes =
      [(0, 3, 4), (1, 4, 5)] ∧
    (execute_piped_commands all_ok initial_fds "ls | wc".toList).open_after =
      some [0, 1, 2, 4] := by
  refine ⟨by rfl, by rfl, by rfl, by rfl⟩

end MyShell
